import Mathlib

/-!
Shallow embedding of the PCI enumeration and driver-binding subsystem found in
`src/kernel/src/pci.rs`.

Hardware is modelled as a pure function from the 32-bit selection address
written to the configuration-address port to the 32-bit value subsequently
read from the configuration-data port.  Machine integers are modelled as
`Nat`; every value the code builds from hardware words stays below `2 ^ 32`
whenever the hardware words do, and no arithmetic in this module overflows.
The interrupt-disabling lock cell comes from the repository's `lockcell`
crate, which is not present under `src/`; it is modelled from the spec as a
flag paired with the guarded value.
-/

/-- I/O port for the PCI configuration space window address. -/
def PCI_CONFIG_ADDRESS : Nat := 0xcf8

/-- I/O port for the PCI configuration space window data. -/
def PCI_CONFIG_DATA : Nat := 0xcfc

/-- Enable bit for accessing the `0xcf8` I/O port. -/
def PCI_ADDRESS_ENABLE : Nat := 1 <<< 31

/-- Packed BDF address, `(bus << 8) | (device << 3) | (function << 0)`. -/
def pciAddrOf (bus device function : Nat) : Nat :=
  (bus <<< 8) ||| (device <<< 3) ||| (function <<< 0)

/-- Selection address for register 0 of a packed BDF address,
`PCI_ADDRESS_ENABLE | (pci_addr << 8)`. -/
def selectionAddr (pci_addr : Nat) : Nat :=
  PCI_ADDRESS_ENABLE ||| (pci_addr <<< 8)

/-- One iteration of the bus scan in `init`: select the BDF address, read the
device/vendor ID word at the data port, and set the presence bit unless the
word is the all-ones absent sentinel. -/
def scanStep (hw : Nat → Nat) (pci_enum : List Nat) (pci_addr : Nat) : List Nat :=
  let addr := selectionAddr pci_addr
  let did_vid := hw addr
  if did_vid ≠ 0xffffffff then
    let idx := pci_addr / 64
    let bit := pci_addr % 64
    pci_enum.set idx (pci_enum.getD idx 0 ||| (1 <<< bit))
  else
    pci_enum

/-- Bus scan of `init`: every (bus, device, function) triple in ascending
order, starting from the all-zero bitmap of `256 * 32 * 8 / 64` words. -/
def pciScan (hw : Nat → Nat) : List Nat :=
  (List.range 256).foldl (fun pci_enum bus =>
    (List.range 32).foldl (fun pci_enum device =>
      (List.range 8).foldl (fun pci_enum function =>
        scanStep hw pci_enum (pciAddrOf bus device function)) pci_enum) pci_enum)
    (List.replicate (256 * 32 * 8 / 64) 0)

/-- Common PCI header for the PCI configuration space of any device or
bridge. -/
structure PciHeader where
  vendor_id : Nat
  device_id : Nat
  command : Nat
  status : Nat
  revision : Nat
  prog_if : Nat
  subclass : Nat
  «class» : Nat
  cache_line_size : Nat
  latency_timer : Nat
  header_type : Nat
  bist : Nat
deriving DecidableEq

/-- Size in bytes of `PciHeader` under `repr(C)`:
four 16-bit fields and eight 8-bit fields. -/
def sizeOfPciHeader : Nat := 16

/-- Configuration space for a PCI device. -/
structure PciDevice where
  header : PciHeader
  bar0 : Nat
  bar1 : Nat
  bar2 : Nat
  bar3 : Nat
  bar4 : Nat
  bar5 : Nat
  cardbus_cis_pointer : Nat
  subsystem_vendor_id : Nat
  subsystem_device_id : Nat
  expansion_rom_address : Nat
  capabilities : Nat
  reserved : List Nat
  interrupt_line : Nat
  interrupt_pin : Nat
  min_grant : Nat
  max_latency : Nat
deriving DecidableEq

/-- Size in bytes of `PciDevice` under `repr(C)`: the 16-byte header, six
32-bit BARs, the CardBus pointer, two 16-bit subsystem IDs, the expansion ROM
address, the capabilities byte, seven reserved bytes and four trailing
bytes. -/
def sizeOfPciDevice : Nat := 64

/-- Byte `i` of a 32-bit register word (little-endian reinterpretation). -/
def byteAt (w i : Nat) : Nat := (w >>> (8 * i)) &&& 0xff

/-- Bits 16 `i` through 16 `i` + 15 of a 32-bit register word (little-endian
reinterpretation of a `u16` field). -/
def halfAt (w i : Nat) : Nat := (w >>> (16 * i)) &&& 0xffff

/-- Reinterpretation of the first four register words as a `PciHeader`, as
done by `core::ptr::read_unaligned` on the little-endian target. -/
def decodeHeader (w : List Nat) : PciHeader :=
  { vendor_id := halfAt (w.getD 0 0) 0
    device_id := halfAt (w.getD 0 0) 1
    command := halfAt (w.getD 1 0) 0
    status := halfAt (w.getD 1 0) 1
    revision := byteAt (w.getD 2 0) 0
    prog_if := byteAt (w.getD 2 0) 1
    subclass := byteAt (w.getD 2 0) 2
    «class» := byteAt (w.getD 2 0) 3
    cache_line_size := byteAt (w.getD 3 0) 0
    latency_timer := byteAt (w.getD 3 0) 1
    header_type := byteAt (w.getD 3 0) 2
    bist := byteAt (w.getD 3 0) 3 }

/-- Reinterpretation of the sixteen register words as a `PciDevice`, as done
by `core::ptr::read_unaligned` on the little-endian target. -/
def decodePciDevice (w : List Nat) : PciDevice :=
  { header := decodeHeader w
    bar0 := w.getD 4 0
    bar1 := w.getD 5 0
    bar2 := w.getD 6 0
    bar3 := w.getD 7 0
    bar4 := w.getD 8 0
    bar5 := w.getD 9 0
    cardbus_cis_pointer := w.getD 10 0
    subsystem_vendor_id := halfAt (w.getD 11 0) 0
    subsystem_device_id := halfAt (w.getD 11 0) 1
    expansion_rom_address := w.getD 12 0
    capabilities := byteAt (w.getD 13 0) 0
    reserved := [byteAt (w.getD 13 0) 1, byteAt (w.getD 13 0) 2, byteAt (w.getD 13 0) 3,
                 byteAt (w.getD 14 0) 0, byteAt (w.getD 14 0) 1, byteAt (w.getD 14 0) 2,
                 byteAt (w.getD 14 0) 3]
    interrupt_line := byteAt (w.getD 15 0) 0
    interrupt_pin := byteAt (w.getD 15 0) 1
    min_grant := byteAt (w.getD 15 0) 2
    max_latency := byteAt (w.getD 15 0) 3 }

/-- Register-read loop of `init`: one 32-bit read per register index `rid`,
each issued at selection address `addr | (rid * 4)`. -/
def readRegs (hw : Nat → Nat) (addr n : Nat) : List Nat :=
  (List.range n).map fun rid => hw (addr ||| (rid * 4))

/-- Selection addresses issued by `readRegs`, in issue order. -/
def regAddrs (addr n : Nat) : List Nat :=
  (List.range n).map fun rid => addr ||| (rid * 4)

/-- Driver-probe loop of `init`: offer the device snapshot to every probe
routine in list order and push every instance returned onto the store. -/
def probeAll {α : Type} (drivers : List (PciDevice → Option α)) (device : PciDevice)
    (store : List α) : List α :=
  drivers.foldl (fun s probe =>
    match probe device with
    | some driver => s ++ [driver]
    | none => s) store

/-- Processing of one present BDF address inside `init`: read the header
registers, skip entries whose header type has nonzero low 7 bits, otherwise
read the full configuration registers and run every probe routine.  Alongside
the updated device store the result carries the list of selection addresses
read and the number of probe invocations, so that the absence of reads and of
probe calls is observable. -/
def processAddr {α : Type} (drivers : List (PciDevice → Option α)) (hw : Nat → Nat)
    (store : List α) (pci_addr : Nat) : List α × List Nat × Nat :=
  let addr := selectionAddr pci_addr
  let header := decodeHeader (readRegs hw addr (sizeOfPciHeader / 4))
  if header.header_type &&& 0x7f ≠ 0 then
    (store, regAddrs addr (sizeOfPciHeader / 4), 0)
  else
    let device := decodePciDevice (readRegs hw addr (sizeOfPciDevice / 4))
    (probeAll drivers device store,
     regAddrs addr (sizeOfPciHeader / 4) ++ regAddrs addr (sizeOfPciDevice / 4),
     drivers.length)

/-- Bitmap traversal of `init`: walk the 64-bit words with their indices,
skip all-zero words, then visit each set bit of a nonzero word,
reconstructing the packed BDF address as `(idx * 64) | bit`. -/
def traverseBitmap (bm : List Nat) : List Nat :=
  bm.enum.foldl (fun acc p =>
    if p.2 = 0 then acc
    else
      (List.range 64).foldl (fun acc bit =>
        if p.2 &&& (1 <<< bit) = 0 then acc
        else acc ++ [(p.1 * 64) ||| bit]) acc) []

/-- Entry point `init`: reuse the persisted presence bitmap when it is
already present, otherwise run the bus scan and persist its result; then
process every address the bitmap traversal visits, threading the device
store.  The result is the persisted slot after the call paired with the
device store after the call. -/
def init {α : Type} (drivers : List (PciDevice → Option α)) (hw : Nat → Nat)
    (persisted : Option (List Nat)) (devices : List α) :
    Option (List Nat) × List α :=
  let pci_devices := if persisted.isNone then some (pciScan hw) else persisted
  let bm := pci_devices.getD []
  (pci_devices,
   (traverseBitmap bm).foldl
     (fun store pci_addr => (processAddr drivers hw store pci_addr).1) devices)

/-- Different types for PCI BARs. -/
inductive BarType where
  | Bits32
  | Bits64
deriving DecidableEq

/-- Conversion `impl From<u32> for BarType`; the wildcard arm aborts the
kernel, which the embedding records as `none`. -/
def BarType.«from» (val : Nat) : Option BarType :=
  match val with
  | 0 => some BarType.Bits32
  | 2 => some BarType.Bits64
  | _ => none

/-- Modelled from the spec: the interrupt-disabling lock cell of the
repository's `lockcell` crate, which is not under `src/`.  The cell records
whether some context logically holds the lock alongside the guarded value. -/
structure LockCell (α : Type) where
  locked : Bool
  value : α

/-- Modelled from the spec: forced access to the guarded value that bypasses
the lock state entirely instead of blocking on it. -/
def LockCell.shatter {α : Type} (c : LockCell α) : α := c.value

/-- Teardown entry point `destroy_devices`: obtain the store through
`shatter` and invoke `purge` on every stored instance in order.  The result
is the cell after the call paired with the ordered trace of instances on
which `purge` was invoked. -/
def destroy_devices {α : Type} (c : LockCell (List α)) : LockCell (List α) × List α :=
  let devices := LockCell.shatter c
  (⟨c.locked, devices⟩, devices.foldl (fun trace device => trace ++ [device]) [])

/-- Naive per-bit traversal, written from the spec's words for the
refinement claim C10: iterate over every address of the full 65536-address
space in ascending order and keep exactly those whose presence bit is set. -/
def naiveTraverse (bm : List Nat) : List Nat :=
  (List.range 65536).filter fun pci_addr =>
    decide (bm.getD (pci_addr / 64) 0 &&& (1 <<< (pci_addr % 64)) ≠ 0)

/-- Canonical contribution of one bitmap word to the traversal: the set bits
of the word, in ascending order, mapped to their reconstructed addresses. -/
def bitChunk (idx w : Nat) : List Nat :=
  ((List.range 64).filter fun bit => decide (w &&& (1 <<< bit) ≠ 0)).map
    fun bit => (idx * 64) ||| bit

/-- Canonical form of the whole traversal: the concatenation of the chunks of
the words, indexed from a starting word index. -/
def chunksFrom : Nat → List Nat → List Nat
  | _, [] => []
  | s, w :: rest => bitChunk s w ++ chunksFrom (s + 1) rest

/-- Sample device snapshot used by concrete witnesses. -/
def sampleDevice : PciDevice := decodePciDevice (List.replicate 16 0)

/-- Sample hardware on which every register word reads `0x00010000`, giving
every header a header type of 1. -/
def hwBridge : Nat → Nat := fun _ => 0x00010000

/-- Sample hardware with the absent sentinel at BDF address 5 and a device
word everywhere else. -/
def hwSample : Nat → Nat := fun addr =>
  if addr = selectionAddr 5 then 0xffffffff else 0x12345678

/-- Disjoint-bit decomposition: when the low `n` bits are free, bitwise or
with a value shifted left by `n` is plain addition. -/
theorem shiftLeft_or_eq_add (a n b : Nat) (h : b < 2 ^ n) :
    (a <<< n) ||| b = a * 2 ^ n + b := by
  apply Nat.eq_of_testBit_eq
  intro i
  rw [Nat.testBit_or, Nat.testBit_shiftLeft]
  rcases lt_or_ge i n with hi | hi
  · have hdec : decide (i ≥ n) = false := by simp; omega
    rw [hdec, Bool.false_and, Bool.false_or]
    have hmod : ((a * 2 ^ n + b) % 2 ^ n).testBit i = (a * 2 ^ n + b).testBit i := by
      rw [Nat.testBit_mod_two_pow]
      simp [hi]
    rw [← hmod, Nat.mul_comm a (2 ^ n), Nat.mul_add_mod, Nat.mod_eq_of_lt h]
  · have hdec : decide (i ≥ n) = true := by simpa using hi
    rw [hdec, Bool.true_and]
    have hb : b.testBit i = false := by
      apply Nat.testBit_lt_two_pow
      exact lt_of_lt_of_le h (Nat.pow_le_pow_right (by omega) hi)
    rw [hb, Bool.or_false]
    have hdiv : (a * 2 ^ n + b) >>> n = a := by
      rw [Nat.shiftRight_eq_div_pow, Nat.mul_comm a (2 ^ n),
        Nat.mul_add_div (Nat.pos_pow_of_pos n (by omega)), Nat.div_eq_of_lt h,
        Nat.add_zero]
    have hsr := Nat.testBit_shiftRight (i := n) (j := i - n) (a * 2 ^ n + b)
    rw [hdiv, Nat.add_sub_cancel' hi] at hsr
    exact hsr

/-- Arithmetic form of the packed BDF address: the three shifted fields
occupy disjoint bit ranges, so the bitwise ors are additions. -/
theorem pciAddrOf_eq (bus device function : Nat)
    (hd : device < 32) (hf : function < 8) :
    pciAddrOf bus device function = bus * 256 + device * 8 + function := by
  unfold pciAddrOf
  rw [Nat.shiftLeft_zero]
  have h3 : device <<< 3 = device * 8 := by rw [Nat.shiftLeft_eq]
  have h1 : (bus <<< 8) ||| (device <<< 3) = bus * 256 + device * 8 := by
    rw [h3, shiftLeft_or_eq_add bus 8 (device * 8) (by omega)]
    norm_num
  rw [h1]
  have h2 : bus * 256 + device * 8 = (bus * 32 + device) <<< 3 := by
    rw [Nat.shiftLeft_eq]
    ring
  rw [h2, shiftLeft_or_eq_add _ 3 function (by omega), Nat.shiftLeft_eq]

/-- Arithmetic form of the bit-address reconstruction in the bitmap
traversal: for a bit index below 64 the bitwise or is addition. -/
theorem mul64_or_eq_add (idx bit : Nat) (h : bit < 64) :
    (idx * 64) ||| bit = idx * 64 + bit := by
  have h1 : idx * 64 = idx <<< 6 := by rw [Nat.shiftLeft_eq]
  rw [h1, shiftLeft_or_eq_add idx 6 bit (by omega), Nat.shiftLeft_eq]

/-- Arithmetic form of the selection address: the enable bit is above every
bit of a shifted 16-bit BDF address. -/
theorem selectionAddr_eq (pci_addr : Nat) (h : pci_addr < 65536) :
    selectionAddr pci_addr = 0x80000000 + pci_addr * 256 := by
  unfold selectionAddr PCI_ADDRESS_ENABLE
  have h1 : pci_addr <<< 8 = pci_addr * 256 := by rw [Nat.shiftLeft_eq]
  rw [h1, shiftLeft_or_eq_add 1 31 (pci_addr * 256) (by omega)]
  norm_num

/-- C5: for every in-range (bus, device, function) triple the packed BDF is
`(bus<<8)|(device<<3)|function`, equal to `bus*256 + device*8 + function` and
below 65536; the selection address for register 0 is `0x80000000` plus the
BDF shifted left by 8; and at (bus=1, device=2, function=3) the packed BDF is
`0x113` with selection address `0x80011300`. -/
theorem pci_address_encoding (bus device function : Nat)
    (hb : bus < 256) (hd : device < 32) (hf : function < 8) :
    pciAddrOf bus device function = bus * 256 + device * 8 + function
    ∧ pciAddrOf bus device function < 65536
    ∧ selectionAddr (pciAddrOf bus device function)
        = 0x80000000 + pciAddrOf bus device function * 256
    ∧ pciAddrOf 1 2 3 = 0x113
    ∧ selectionAddr 0x113 = 0x80011300 := by
  have he := pciAddrOf_eq bus device function hd hf
  have hlt : pciAddrOf bus device function < 65536 := by rw [he]; omega
  refine ⟨he, hlt, selectionAddr_eq _ hlt, by decide, by decide⟩

/-- Witness for C5 at the concrete triple (1, 2, 3). -/
theorem pci_address_encoding_witness :
    pciAddrOf 1 2 3 = 1 * 256 + 2 * 8 + 3 :=
  (pci_address_encoding 1 2 3 (by decide) (by decide) (by decide)).1

/-- C6: decoding a BAR type maps raw value 0 to the 32-bit tag and raw value
2 to the 64-bit tag, and every other input reaches the aborting wildcard arm,
modelled as `none`. -/
theorem barType_decode :
    BarType.«from» 0 = some BarType.Bits32
    ∧ BarType.«from» 2 = some BarType.Bits64
    ∧ ∀ v : Nat, v ≠ 0 → v ≠ 2 → BarType.«from» v = none := by
  refine ⟨rfl, rfl, ?_⟩
  intro v h0 h2
  match v, h0, h2 with
  | 1, _, _ => rfl
  | (n + 3), _, _ => rfl

/-- Witness for C6 at the concrete raw value 5. -/
theorem barType_decode_witness : BarType.«from» 5 = none :=
  barType_decode.2.2 5 (by decide) (by decide)

/-- Accumulating a singleton per element from the left collects the whole
list after the initial accumulator. -/
theorem foldl_append_singleton {α : Type} (l : List α) (init : List α) :
    l.foldl (fun acc x => acc ++ [x]) init = init ++ l := by
  induction l generalizing init with
  | nil => simp
  | cons x xs ih => simp [ih]

/-- C3: `destroy_devices` invokes `purge` once on each instance present in
the store at the start of the call, in store order, for every lock state,
including one in which the lock is logically held by an abandoned context. -/
theorem destroy_devices_purges_all (α : Type) (locked : Bool) (store : List α) :
    (destroy_devices ⟨locked, store⟩).2 = store := by
  unfold destroy_devices LockCell.shatter
  exact (foldl_append_singleton store []).trans (List.nil_append store)

/-- C9: the teardown operation does not remove entries from the device
store; the cell still holds exactly the instances it held at the start. -/
theorem destroy_devices_preserves_store {α : Type} (c : LockCell (List α)) :
    (destroy_devices c).1 = c :=
  rfl

/-- C4: the probe loop offers the device snapshot to every routine in list
order, does not stop at the first routine returning a value, and appends
every returned instance to the store; in particular two routines that both
claim one device each contribute an instance. -/
theorem probe_loop_appends_all (α : Type) :
    (∀ (drivers : List (PciDevice → Option α)) (device : PciDevice) (store : List α),
        probeAll drivers device store
          = store ++ drivers.filterMap (fun probe => probe device))
    ∧ ∀ (p q : PciDevice → Option α) (device : PciDevice) (store : List α) (a b : α),
        p device = some a → q device = some b →
        probeAll [p, q] device store = store ++ [a, b] := by
  have hgen : ∀ (drivers : List (PciDevice → Option α)) (device : PciDevice)
      (store : List α),
      probeAll drivers device store
        = store ++ drivers.filterMap (fun probe => probe device) := by
    intro drivers device
    induction drivers with
    | nil => intro store; simp [probeAll]
    | cons p ps ih =>
      intro store
      simp only [probeAll, List.foldl_cons, List.filterMap_cons]
      cases hp : p device with
      | none => simpa [probeAll] using ih store
      | some a =>
        have := ih (store ++ [a])
        simp only [probeAll] at this
        rw [this, List.append_assoc]
        rfl
  refine ⟨hgen, ?_⟩
  intro p q device store a b hp hq
  rw [hgen [p, q] device store]
  simp [List.filterMap_cons, hp, hq]

/-- Witness for C4: two probe routines that both claim `sampleDevice` both
land in the store. -/
theorem probe_loop_appends_all_witness :
    probeAll [fun _ => some 1, fun _ => some 2] sampleDevice ([] : List Nat)
      = [] ++ [1, 2] :=
  (probe_loop_appends_all Nat).2 (fun _ => some 1) (fun _ => some 2)
    sampleDevice [] 1 2 rfl rfl

/-- C2: when the configuration header has nonzero low 7 bits in its header
type, processing the address leaves the store unchanged, reads only the four
header registers, and invokes no probe routine. -/
theorem bridge_filter {α : Type} (drivers : List (PciDevice → Option α))
    (hw : Nat → Nat) (store : List α) (pci_addr : Nat)
    (h : (decodeHeader (readRegs hw (selectionAddr pci_addr)
            (sizeOfPciHeader / 4))).header_type &&& 0x7f ≠ 0) :
    processAddr drivers hw store pci_addr
      = (store, regAddrs (selectionAddr pci_addr) (sizeOfPciHeader / 4), 0) := by
  simp only [processAddr]
  rw [if_pos h]

/-- Witness for C2 on `hwBridge`, whose header type has nonzero low bits. -/
theorem bridge_filter_witness :
    processAddr ([fun _ => some 1] : List (PciDevice → Option Nat)) hwBridge [] 0
      = ([], regAddrs (selectionAddr 0) (sizeOfPciHeader / 4), 0) :=
  bridge_filter [fun _ => some 1] hwBridge [] 0 (by decide)

/-- C7: enumeration is idempotent: running `init` a second time against the
persisted slot produced by a first run leaves the slot bit-identical, and a
slot that already holds a bitmap at entry is reused unchanged with a result
independent of the hardware, so no scan is performed. -/
theorem init_idempotent :
    (∀ (α : Type) (drivers : List (PciDevice → Option α)) (hw : Nat → Nat)
        (persisted : Option (List Nat)) (devices devices2 : List α),
        (init drivers hw (init drivers hw persisted devices).1 devices2).1
          = (init drivers hw persisted devices).1)
    ∧ ∀ (α : Type) (drivers : List (PciDevice → Option α)) (hw hw2 : Nat → Nat)
        (bm : List Nat) (devices : List α),
        (init drivers hw (some bm) devices).1 = some bm
        ∧ (init drivers hw (some bm) devices).1
            = (init drivers hw2 (some bm) devices).1 := by
  constructor
  · intro α drivers hw persisted devices devices2
    cases persisted <;> simp [init]
  · intro α drivers hw hw2 bm devices
    constructor <;> simp [init]

/-- Counterexample to C8 as stated: on concrete hardware the header read
loop performs `size_of::<PciHeader>() / 4 = 4` register reads, not 16. -/
theorem header_read_count_ne_16 :
    (readRegs (fun _ => 0) (selectionAddr 0) (sizeOfPciHeader / 4)).length ≠ 16 := by
  decide

/-- C8 amended: the header read loop issues one 32-bit read per register
index `r` from 0 to `struct_size / 4 - 1` at selection address
`ENABLE_BIT | (bdf << 8) | (r * 4)`; the header is a 16-byte four-register
structure, so reading it performs 4 register reads, while the 16-register
count belongs to the full 64-byte device configuration. -/
theorem header_read_loop (hw : Nat → Nat) (pci_addr : Nat) :
    (readRegs hw (selectionAddr pci_addr) (sizeOfPciHeader / 4)).length
        = sizeOfPciHeader / 4
    ∧ sizeOfPciHeader / 4 = 4
    ∧ sizeOfPciDevice / 4 = 16
    ∧ ∀ r, r < sizeOfPciHeader / 4 →
        (readRegs hw (selectionAddr pci_addr) (sizeOfPciHeader / 4)).getD r 0
          = hw (selectionAddr pci_addr ||| (r * 4)) := by
  refine ⟨by simp [readRegs], rfl, rfl, ?_⟩
  intro r hr
  rw [readRegs, List.getD_eq_getElem?_getD, List.getElem?_map,
    List.getElem?_range hr]
  rfl

/-- Witness for C8's amended statement at concrete hardware and register 2. -/
theorem header_read_loop_witness :
    (readRegs hwBridge (selectionAddr 0) (sizeOfPciHeader / 4)).getD 2 0
      = hwBridge (selectionAddr 0 ||| (2 * 4)) :=
  (header_read_loop hwBridge 0).2.2.2 2 (by decide)

/-- Folding over a product range splits into nested folds over the factors. -/
theorem foldl_range_mul {β : Type} (f : β → Nat → β) (n m : Nat) (init : β) :
    (List.range (n * m)).foldl f init
      = (List.range n).foldl (fun acc i =>
          (List.range m).foldl (fun acc j => f acc (i * m + j)) acc) init := by
  induction n generalizing init with
  | zero => simp
  | succ n ih =>
    rw [show (n + 1) * m = n * m + m from by ring, List.range_add,
      List.foldl_append, List.range_succ, List.foldl_append, ← ih,
      List.foldl_map]
    simp only [List.foldl_cons, List.foldl_nil]

/-- Congruence for folds whose step functions agree on the list members. -/
theorem foldl_congr_mem {α β : Type} (l : List α) (f g : β → α → β) (init : β)
    (h : ∀ acc a, a ∈ l → f acc a = g acc a) :
    l.foldl f init = l.foldl g init := by
  induction l generalizing init with
  | nil => rfl
  | cons x xs ih =>
    rw [List.foldl_cons, List.foldl_cons, h init x (List.mem_cons_self x xs)]
    exact ih _ fun acc a ha => h acc a (List.mem_cons_of_mem x ha)

/-- Reading back the updated entry of an in-range list update. -/
theorem getD_set_self (l : List Nat) (i v : Nat) (h : i < l.length) :
    (l.set i v).getD i 0 = v := by
  rw [List.getD_eq_getElem?_getD, List.getElem?_set]
  simp [h]

/-- Reading any other entry of a list update. -/
theorem getD_set_ne (l : List Nat) (i j v : Nat) (h : i ≠ j) :
    (l.set i v).getD j 0 = l.getD j 0 := by
  rw [List.getD_eq_getElem?_getD, List.getElem?_set, if_neg h,
    ← List.getD_eq_getElem?_getD]

/-- Every entry of the all-zero bitmap reads zero. -/
theorem getD_replicate_zero (n i : Nat) :
    (List.replicate n (0 : Nat)).getD i 0 = 0 := by
  rw [List.getD_eq_getElem?_getD, List.getElem?_replicate]
  split <;> rfl

/-- A scan step preserves the bitmap length. -/
theorem scanStep_length (hw : Nat → Nat) (l : List Nat) (a : Nat) :
    (scanStep hw l a).length = l.length := by
  simp only [scanStep]
  split
  · exact List.length_set l _ _
  · rfl

/-- The scan fold preserves the bitmap length. -/
theorem scan_foldl_length (hw : Nat → Nat) (ns : List Nat) (l : List Nat) :
    (ns.foldl (scanStep hw) l).length = l.length := by
  induction ns generalizing l with
  | nil => rfl
  | cons x xs ih => rw [List.foldl_cons, ih, scanStep_length]

/-- The triple loop of the scan visits exactly the packed BDF addresses 0
through 65535, in ascending order. -/
theorem pciScan_eq_foldl_range (hw : Nat → Nat) :
    pciScan hw
      = (List.range 65536).foldl (scanStep hw) (List.replicate 1024 0) := by
  unfold pciScan
  rw [show (256 * 32 * 8 / 64 : Nat) = 1024 from by norm_num,
    show (65536 : Nat) = 256 * 256 from by norm_num, foldl_range_mul]
  apply foldl_congr_mem
  intro acc bus hbus
  dsimp only
  have hinner := foldl_range_mul
    (fun acc j => scanStep hw acc (bus * 256 + j)) 32 8 acc
  rw [show (32 * 8 : Nat) = 256 from by norm_num] at hinner
  rw [hinner]
  apply foldl_congr_mem
  intro acc2 device hdev
  dsimp only
  apply foldl_congr_mem
  intro acc3 function hfn
  dsimp only
  rw [pciAddrOf_eq bus device function (List.mem_range.mp hdev)
    (List.mem_range.mp hfn), Nat.add_assoc]

/-- Characterization of a scan prefix: after processing addresses 0 through
`n - 1`, the presence bit of an address is set exactly when the address has
already been processed and its read was not the all-ones sentinel. -/
theorem scan_foldl_testBit (hw : Nat → Nat) (n : Nat) (hn : n ≤ 65536)
    (addr : Nat) (haddr : addr < 65536) :
    (((List.range n).foldl (scanStep hw)
        (List.replicate 1024 0)).getD (addr / 64) 0).testBit (addr % 64) = true
    ↔ (addr < n ∧ hw (selectionAddr addr) ≠ 0xffffffff) := by
  induction n with
  | zero =>
    rw [List.range_zero, List.foldl_nil, getD_replicate_zero]
    simp [Nat.zero_testBit]
  | succ n ih =>
    have IH := ih (by omega)
    rw [List.range_succ, List.foldl_append, List.foldl_cons, List.foldl_nil]
    set bm := (List.range n).foldl (scanStep hw) (List.replicate 1024 0) with hbm
    have hlen : bm.length = 1024 := by
      rw [hbm, scan_foldl_length, List.length_replicate]
    simp only [scanStep]
    by_cases hsn : hw (selectionAddr n) ≠ 0xffffffff
    · rw [if_pos hsn]
      by_cases heq : addr = n
      · subst heq
        rw [getD_set_self bm (addr / 64) _ (by rw [hlen]; omega)]
        rw [Nat.testBit_or, Nat.one_shiftLeft, Nat.testBit_two_pow_self,
          Bool.or_true]
        constructor
        · intro _
          exact ⟨Nat.lt_succ_self addr, hsn⟩
        · intro _
          rfl
      · by_cases hidx : addr / 64 = n / 64
        · have hbit : addr % 64 ≠ n % 64 := by omega
          rw [← hidx]
          rw [getD_set_self bm (addr / 64) _ (by rw [hlen]; omega)]
          rw [Nat.testBit_or, Nat.one_shiftLeft,
            Nat.testBit_two_pow_of_ne (Ne.symm hbit), Bool.or_false, IH]
          constructor
          · rintro ⟨ha, hc⟩
            exact ⟨by omega, hc⟩
          · rintro ⟨ha, hc⟩
            exact ⟨by omega, hc⟩
        · rw [getD_set_ne bm (n / 64) (addr / 64) _ (Ne.symm hidx), IH]
          constructor
          · rintro ⟨ha, hc⟩
            exact ⟨by omega, hc⟩
          · rintro ⟨ha, hc⟩
            exact ⟨by omega, hc⟩
    · rw [if_neg hsn, IH]
      constructor
      · rintro ⟨ha, hc⟩
        exact ⟨by omega, hc⟩
      · rintro ⟨ha, hc⟩
        refine ⟨?_, hc⟩
        rcases Nat.lt_succ_iff_lt_or_eq.mp ha with h | h
        · exact h
        · exact absurd (h ▸ hc) hsn

/-- C1: for every BDF address of the 65536-address space, the presence bit of
the scanned bitmap is set exactly when the 32-bit value read from the data
port after selecting the address is not the all-ones sentinel; a read of
all-ones leaves the bit clear. -/
theorem scan_presence_bit_iff (hw : Nat → Nat) (pci_addr : Nat)
    (h : pci_addr < 65536) :
    ((pciScan hw).getD (pci_addr / 64) 0).testBit (pci_addr % 64) = true
      ↔ hw (selectionAddr pci_addr) ≠ 0xffffffff := by
  rw [pciScan_eq_foldl_range,
    scan_foldl_testBit hw 65536 le_rfl pci_addr h]
  constructor
  · rintro ⟨_, hc⟩
    exact hc
  · intro hc
    exact ⟨h, hc⟩

/-- Witness for C1 on `hwSample` at the absent address 5. -/
theorem scan_presence_bit_iff_witness :
    ((pciScan hwSample).getD (5 / 64) 0).testBit (5 % 64) = true
      ↔ hwSample (selectionAddr 5) ≠ 0xffffffff :=
  scan_presence_bit_iff hwSample 5 (by decide)

/-- A nonzero bit test against a single shifted bit is exactly the bit
test. -/
theorem and_one_shiftLeft_ne_zero (x b : Nat) :
    x &&& (1 <<< b) ≠ 0 ↔ x.testBit b = true := by
  rw [Nat.one_shiftLeft, Nat.and_two_pow]
  cases h : x.testBit b <;> simp [h]

/-- The inner bit loop of the traversal collects the set bits of a word, in
ascending bit order, after the accumulator. -/
theorem bit_loop_eq_aux (w idx : Nat) (l : List Nat) (acc : List Nat) :
    l.foldl (fun acc bit =>
        if w &&& (1 <<< bit) = 0 then acc
        else acc ++ [(idx * 64) ||| bit]) acc
      = acc ++ ((l.filter fun bit => decide (w &&& (1 <<< bit) ≠ 0)).map
          fun bit => (idx * 64) ||| bit) := by
  induction l generalizing acc with
  | nil => simp
  | cons x xs ih =>
    rw [List.foldl_cons]
    by_cases hx : w &&& (1 <<< x) = 0
    · rw [if_pos hx, ih]
      have hd : decide (w &&& (1 <<< x) ≠ 0) = false := by simp [hx]
      rw [List.filter_cons, hd]
      simp
    · rw [if_neg hx, ih]
      have hd : decide (w &&& (1 <<< x) ≠ 0) = true := by simp [hx]
      rw [List.filter_cons, hd]
      simp

/-- An all-zero word contributes nothing to the traversal. -/
theorem bitChunk_zero (idx : Nat) : bitChunk idx 0 = [] := by
  simp [bitChunk, Nat.zero_and]

/-- The outer word loop of the traversal, started at any word index,
appends the canonical chunks of the remaining words. -/
theorem traverse_foldl_enumFrom (bm : List Nat) (s : Nat) (acc : List Nat) :
    (List.enumFrom s bm).foldl (fun acc p =>
        if p.2 = 0 then acc
        else
          (List.range 64).foldl (fun acc bit =>
            if p.2 &&& (1 <<< bit) = 0 then acc
            else acc ++ [(p.1 * 64) ||| bit]) acc) acc
      = acc ++ chunksFrom s bm := by
  induction bm generalizing s acc with
  | nil => simp [chunksFrom]
  | cons w rest ih =>
    rw [List.enumFrom_cons, List.foldl_cons]
    dsimp only
    by_cases hw0 : w = 0
    · subst hw0
      rw [if_pos rfl, ih]
      show acc ++ chunksFrom (s + 1) rest = acc ++ chunksFrom s (0 :: rest)
      rw [show chunksFrom s (0 :: rest) = bitChunk s 0 ++ chunksFrom (s + 1) rest
          from rfl, bitChunk_zero]
      rfl
    · rw [if_neg hw0, bit_loop_eq_aux, ih]
      rw [show chunksFrom s (w :: rest) = bitChunk s w ++ chunksFrom (s + 1) rest
          from rfl]
      rw [show bitChunk s w
            = ((List.range 64).filter fun bit => decide (w &&& (1 <<< bit) ≠ 0)).map
                (fun bit => (s * 64) ||| bit) from rfl]
      rw [List.append_assoc]

/-- The optimized traversal equals the canonical chunk concatenation. -/
theorem traverseBitmap_eq_chunksFrom (bm : List Nat) :
    traverseBitmap bm = chunksFrom 0 bm := by
  unfold traverseBitmap
  rw [show bm.enum = List.enumFrom 0 bm from rfl, traverse_foldl_enumFrom]
  rfl

/-- The naive filtered range, traversed one 64-address block at a time,
equals the canonical chunk concatenation. -/
theorem naive_chunk (orig : List Nat) :
    ∀ (bm : List Nat) (s : Nat),
      (∀ i, i < bm.length → orig.getD (s + i) 0 = bm.getD i 0) →
      (List.range' (64 * s) (64 * bm.length)).filter (fun a =>
          decide (orig.getD (a / 64) 0 &&& (1 <<< (a % 64)) ≠ 0))
        = chunksFrom s bm := by
  intro bm
  induction bm with
  | nil =>
    intro s h
    simp [chunksFrom]
  | cons w rest ih =>
    intro s h
    have hw1 : orig.getD s 0 = w := by
      have hh := h 0 (by simp)
      simpa using hh
    rw [show 64 * (w :: rest).length = 64 * rest.length + 64
        from by simp [List.length_cons]; ring]
    rw [← List.range'_append (64 * s) 64 (64 * rest.length) 1, List.filter_append]
    have h1 : (List.range' (64 * s) 64).filter (fun a =>
          decide (orig.getD (a / 64) 0 &&& (1 <<< (a % 64)) ≠ 0))
        = bitChunk s w := by
      rw [List.range'_eq_map_range, List.filter_map]
      unfold bitChunk
      have hf : (List.range 64).filter ((fun a =>
            decide (orig.getD (a / 64) 0 &&& (1 <<< (a % 64)) ≠ 0))
              ∘ fun x => 64 * s + x)
          = (List.range 64).filter fun bit => decide (w &&& (1 <<< bit) ≠ 0) := by
        apply List.filter_congr
        intro bit hbit
        have hb : bit < 64 := List.mem_range.mp hbit
        have hdiv : (64 * s + bit) / 64 = s := by omega
        have hmod : (64 * s + bit) % 64 = bit := by omega
        simp only [Function.comp_apply]
        rw [hdiv, hmod, hw1]
      rw [hf]
      apply List.map_congr_left
      intro bit hbit
      have hb : bit < 64 := List.mem_range.mp (List.mem_of_mem_filter hbit)
      rw [mul64_or_eq_add s bit hb]
      omega
    have h2 : (List.range' (64 * s + 1 * 64) (64 * rest.length)).filter (fun a =>
          decide (orig.getD (a / 64) 0 &&& (1 <<< (a % 64)) ≠ 0))
        = chunksFrom (s + 1) rest := by
      have htail : ∀ i, i < rest.length → orig.getD (s + 1 + i) 0 = rest.getD i 0 := by
        intro i hi
        have hh := h (i + 1) (by simp [List.length_cons]; omega)
        rw [show s + (i + 1) = s + 1 + i from by omega] at hh
        simpa using hh
      rw [show 64 * s + 1 * 64 = 64 * (s + 1) from by ring]
      exact ih (s + 1) htail
    rw [h1, h2]
    rfl

/-- The naive per-bit traversal of a full-size bitmap equals the canonical
chunk concatenation. -/
theorem naiveTraverse_eq_chunksFrom (bm : List Nat) (hlen : bm.length = 1024) :
    naiveTraverse bm = chunksFrom 0 bm := by
  unfold naiveTraverse
  rw [show (65536 : Nat) = 64 * bm.length from by rw [hlen], List.range_eq_range']
  have hmain := naive_chunk bm bm 0 fun i hi => by simp
  rw [show (64 * 0 : Nat) = 0 from by ring] at hmain
  exact hmain

/-- C10: the word-skipping traversal processes exactly the addresses whose
presence bit is set, in ascending order, the reconstructed address
`idx * 64 | bit` being the packed BDF of the set bit: it equals the naive
per-bit iteration over all 65536 addresses, and over a scanned bitmap it
visits exactly the addresses whose hardware read was not the sentinel. -/
theorem traversal_refines_naive :
    (∀ bm : List Nat, bm.length = 1024 → traverseBitmap bm = naiveTraverse bm)
    ∧ ∀ hw : Nat → Nat,
        traverseBitmap (pciScan hw)
          = (List.range 65536).filter fun pci_addr =>
              decide (hw (selectionAddr pci_addr) ≠ 0xffffffff) := by
  have hmain : ∀ bm : List Nat, bm.length = 1024 →
      traverseBitmap bm = naiveTraverse bm := by
    intro bm hlen
    rw [traverseBitmap_eq_chunksFrom, naiveTraverse_eq_chunksFrom bm hlen]
  refine ⟨hmain, ?_⟩
  intro hw
  have hlen : (pciScan hw).length = 1024 := by
    rw [pciScan_eq_foldl_range, scan_foldl_length, List.length_replicate]
  rw [hmain (pciScan hw) hlen]
  unfold naiveTraverse
  apply List.filter_congr
  intro a ha
  have ha64 : a < 65536 := List.mem_range.mp ha
  apply decide_eq_decide.mpr
  exact (and_one_shiftLeft_ne_zero _ _).trans (scan_presence_bit_iff hw a ha64)

/-- Witness for C10 on the all-zero bitmap. -/
theorem traversal_refines_naive_witness :
    traverseBitmap (List.replicate 1024 0) = naiveTraverse (List.replicate 1024 0) :=
  traversal_refines_naive.1 (List.replicate 1024 0) (List.length_replicate 1024 0)
